import Mathlib

/-!
Verification of the outperformance-analysis core of the yt-competitor-monitor
repository (src/analyzer.py), embedded shallowly: Python dict records become
structures, Python numbers become exact integers and rationals, the stable
`list.sort(key, reverse=True)` becomes a stable descending insertion sort,
and the `round(x, n)` builtin becomes round-half-to-even on rationals.
-/

namespace YTMonitor

/-- A video record as produced by scraper.fetch_channel_data: keys id, title,
link, views (int), published_time, days_ago (int or None), thumbnail, length. -/
structure Video where
  id : String
  title : String
  link : String
  views : ℤ
  publishedTime : String
  daysAgo : Option ℤ
  thumbnail : String
  durationLabel : String
deriving DecidableEq

/-- A channel record as produced by scraper.fetch_channel_data. -/
structure ChannelData where
  channelName : String
  handle : String
  subscribers : ℤ
  totalVideosCount : ℤ
  videos : List Video
deriving DecidableEq

/-- A video dict copy extended by analyze_channel with the keys
performance_ratio and is_recent. -/
structure ScoredVideo where
  video : Video
  performanceRatio : ℚ
  isRecent : Bool
deriving DecidableEq

/-- The dict returned by analyze_channel. -/
structure AnalysisResult where
  channelName : String
  handle : String
  subscribers : ℤ
  avgViews : ℚ
  totalVideosAnalyzed : ℕ
  outperformingVideos : List ScoredVideo
deriving DecidableEq

/-- The two configuration constants from config.py consumed by the analyzer:
RECENT_DAYS and the minimum performance ratio. -/
structure Config where
  recentDays : ℤ
  minPerformanceRatio : ℚ
deriving DecidableEq

/-- The values in config.py: RECENT_DAYS = 90, minimum ratio = 1.0. -/
def defaultConfig : Config := ⟨90, 1⟩

/-- Python round-half-to-even of a rational to an integer (the builtin
round with ndigits omitted / 0, on exact values). -/
def roundHalfEven (q : ℚ) : ℤ :=
  if q - (⌊q⌋ : ℚ) < 1/2 then ⌊q⌋
  else if (1 : ℚ)/2 < q - (⌊q⌋ : ℚ) then ⌊q⌋ + 1
  else if ⌊q⌋ % 2 = 0 then ⌊q⌋ else ⌊q⌋ + 1

/-- Python round(q, 2) on exact values: round-half-to-even at 2 decimal places. -/
def round2 (q : ℚ) : ℚ := (roundHalfEven (q * 100) : ℚ) / 100

/-- Line 46 of analyzer.py: valid_videos = [v for v in videos if v["views"] > 0]. -/
def validVideos (videos : List Video) : List Video :=
  videos.filter (fun v => decide (0 < v.views))

/-- Lines 60-61 of analyzer.py: avg_views = total_views / len(valid_videos)
(exact division; the caller guarantees a non-empty list). -/
def channelAvg (valid : List Video) : ℚ :=
  (((valid.map (fun v => v.views)).sum : ℤ) : ℚ) / (valid.length : ℚ)

/-- Line 66 of analyzer.py: ratio = views / avg_views if avg_views > 0 else 0. -/
def perfRatio (avg : ℚ) (v : Video) : ℚ :=
  if 0 < avg then (v.views : ℚ) / avg else 0

/-- Lines 70-72 of analyzer.py: is_recent is true when days_ago is not None
and is at most RECENT_DAYS. -/
def isRecentFlag (recentDays : ℤ) : Option ℤ → Bool
  | none => false
  | some d => decide (d ≤ recentDays)

/-- Lines 66-73 of analyzer.py, one loop iteration: keep the video when its
unrounded ratio reaches the configured minimum, storing the ratio rounded to
two decimals and the recency flag. -/
def scoreVideo (cfg : Config) (avg : ℚ) (v : Video) : Option ScoredVideo :=
  if cfg.minPerformanceRatio ≤ perfRatio avg v then
    some ⟨v, round2 (perfRatio avg v), isRecentFlag cfg.recentDays v.daysAgo⟩
  else none

/-- Descending comparison by a key, as used by list.sort with a key function
and reverse=True (a stable sort). -/
def byKeyDesc {α β : Type} [LinearOrder β] (key : α → β) : α → α → Prop :=
  fun x y => key y ≤ key x

instance {α β : Type} [LinearOrder β] (key : α → β) : DecidableRel (byKeyDesc key) :=
  fun x y => inferInstanceAs (Decidable (key y ≤ key x))

instance {α β : Type} [LinearOrder β] (key : α → β) : IsTotal α (byKeyDesc key) :=
  ⟨fun x y => le_total (key y) (key x)⟩

instance {α β : Type} [LinearOrder β] (key : α → β) : IsTrans α (byKeyDesc key) :=
  ⟨fun _ _ _ h1 h2 => le_trans h2 h1⟩

/-- analyze_channel from analyzer.py, lines 12-94. -/
def analyze_channel (cfg : Config) (c : ChannelData) : AnalysisResult :=
  if c.videos = [] then
    ⟨c.channelName, c.handle, c.subscribers, 0, 0, []⟩
  else
    let valid := validVideos c.videos
    if valid = [] then
      ⟨c.channelName, c.handle, c.subscribers, 0, 0, []⟩
    else
      let avg := channelAvg valid
      let outperforming := valid.filterMap (scoreVideo cfg avg)
      let sorted := List.insertionSort (byKeyDesc (fun sv => sv.performanceRatio)) outperforming
      ⟨c.channelName, c.handle, c.subscribers, (roundHalfEven avg : ℚ), valid.length,
        sorted.filter (fun sv => decide (1 < sv.performanceRatio))⟩

/-- analyze_all_channels from analyzer.py, lines 97-124: analyze every
channel, keep results with outperforming videos, sort by their number
descending (stable). -/
def analyze_all_channels (cfg : Config) (channels : List ChannelData) : List AnalysisResult :=
  List.insertionSort (byKeyDesc (fun a => a.outperformingVideos.length))
    ((channels.map (analyze_channel cfg)).filter
      (fun a => decide (a.outperformingVideos ≠ [])))

/-! ### Helper lemmas about rounding -/

theorem roundHalfEven_le (q : ℚ) : (roundHalfEven q : ℚ) ≤ q + 1/2 := by
  have hfl : (⌊q⌋ : ℚ) ≤ q := Int.floor_le q
  have hfu : q < (⌊q⌋ : ℚ) + 1 := Int.lt_floor_add_one q
  unfold roundHalfEven
  split_ifs <;> push_cast <;> linarith

theorem le_roundHalfEven (q : ℚ) : q - 1/2 ≤ (roundHalfEven q : ℚ) := by
  have hfl : (⌊q⌋ : ℚ) ≤ q := Int.floor_le q
  have hfu : q < (⌊q⌋ : ℚ) + 1 := Int.lt_floor_add_one q
  unfold roundHalfEven
  split_ifs <;> push_cast <;> linarith

theorem one_lt_of_one_lt_round2 {q : ℚ} (h : 1 < round2 q) : 1 < q := by
  unfold round2 at h
  have h100 : (100 : ℚ) < (roundHalfEven (q * 100) : ℚ) := by
    have : (0 : ℚ) < 100 := by norm_num
    calc (100 : ℚ) = 1 * 100 := by ring
    _ < (roundHalfEven (q * 100) : ℚ) / 100 * 100 := by
        exact mul_lt_mul_of_pos_right h this
    _ = (roundHalfEven (q * 100) : ℚ) := by field_simp
  have hz : (100 : ℤ) < roundHalfEven (q * 100) := by exact_mod_cast h100
  have hz1 : (101 : ℤ) ≤ roundHalfEven (q * 100) := hz
  have hq : (101 : ℚ) ≤ (roundHalfEven (q * 100) : ℚ) := by exact_mod_cast hz1
  have := roundHalfEven_le (q * 100)
  linarith

theorem one_le_roundHalfEven {q : ℚ} (h : 1 ≤ q) : 1 ≤ roundHalfEven q := by
  have hb := le_roundHalfEven q
  have hpos : (0 : ℚ) < (roundHalfEven q : ℚ) := by linarith
  have : (0 : ℤ) < roundHalfEven q := by exact_mod_cast hpos
  omega

/-! ### Helper lemmas about list sums -/

theorem length_le_sum_of_one_le :
    ∀ l : List ℚ, (∀ x ∈ l, 1 ≤ x) → (l.length : ℚ) ≤ l.sum := by
  intro l
  induction l with
  | nil => simp
  | cons x xs ih =>
    intro h
    have hx := h x (List.mem_cons_self x xs)
    have hxs := ih (fun y hy => h y (List.mem_cons_of_mem x hy))
    simp only [List.length_cons, List.sum_cons]
    push_cast
    linarith

theorem mul_length_lt_sum (m : ℚ) :
    ∀ l : List ℚ, l ≠ [] → (∀ x ∈ l, m < x) → m * l.length < l.sum := by
  intro l
  induction l with
  | nil => intro h; exact absurd rfl h
  | cons x xs ih =>
    intro _ h
    have hx := h x (List.mem_cons_self x xs)
    rcases eq_or_ne xs [] with hnil | hne
    · subst hnil; simp; linarith
    · have hxs := ih hne (fun y hy => h y (List.mem_cons_of_mem x hy))
      simp only [List.length_cons, List.sum_cons]
      push_cast
      linarith

/-! ### Helper lemmas about valid videos and the channel mean -/

theorem mem_validVideos {v : Video} {l : List Video} :
    v ∈ validVideos l ↔ v ∈ l ∧ 0 < v.views := by
  simp [validVideos, List.mem_filter]

theorem validVideos_append (l₁ l₂ : List Video) :
    validVideos (l₁ ++ l₂) = validVideos l₁ ++ validVideos l₂ :=
  List.filter_append l₁ l₂

theorem channelAvg_eq (valid : List Video) :
    channelAvg valid =
      ((valid.map (fun v => (v.views : ℚ))).sum) / (valid.length : ℚ) := by
  unfold channelAvg
  rw [Int.cast_list_sum, List.map_map]
  rfl

theorem one_le_channelAvg {l : List Video} (h : validVideos l ≠ []) :
    1 ≤ channelAvg (validVideos l) := by
  rw [channelAvg_eq]
  have hlen : (0 : ℚ) < ((validVideos l).length : ℚ) := by
    have := List.length_pos.mpr h
    exact_mod_cast this
  rw [le_div_iff₀ hlen, one_mul]
  have hone : ∀ x ∈ (validVideos l).map (fun v => (v.views : ℚ)), 1 ≤ x := by
    intro x hx
    rcases List.mem_map.mp hx with ⟨v, hv, rfl⟩
    have hpos : 0 < v.views := (mem_validVideos.mp hv).2
    have : (1 : ℤ) ≤ v.views := hpos
    exact_mod_cast this
  have := length_le_sum_of_one_le _ hone
  simpa using this

theorem channelAvg_pos {l : List Video} (h : validVideos l ≠ []) :
    0 < channelAvg (validVideos l) :=
  lt_of_lt_of_le zero_lt_one (one_le_channelAvg h)

/-! ### Unfolding lemmas for analyze_channel -/

theorem analyze_channel_of_no_valid (cfg : Config) (c : ChannelData)
    (h : validVideos c.videos = []) :
    analyze_channel cfg c = ⟨c.channelName, c.handle, c.subscribers, 0, 0, []⟩ := by
  unfold analyze_channel
  by_cases hv : c.videos = []
  · simp [hv]
  · simp [hv, h]

theorem analyze_channel_of_valid (cfg : Config) (c : ChannelData)
    (h : validVideos c.videos ≠ []) :
    analyze_channel cfg c = ⟨c.channelName, c.handle, c.subscribers,
      (roundHalfEven (channelAvg (validVideos c.videos)) : ℚ),
      (validVideos c.videos).length,
      (List.insertionSort (byKeyDesc (fun sv => sv.performanceRatio))
        ((validVideos c.videos).filterMap
          (scoreVideo cfg (channelAvg (validVideos c.videos))))).filter
        (fun sv => decide (1 < sv.performanceRatio))⟩ := by
  have hv : c.videos ≠ [] := by
    intro hnil
    exact h (by simp [validVideos, hnil])
  unfold analyze_channel
  simp [hv, h]

theorem scoreVideo_eq_some_iff {cfg : Config} {avg : ℚ} {v : Video} {sv : ScoredVideo} :
    scoreVideo cfg avg v = some sv ↔
      cfg.minPerformanceRatio ≤ perfRatio avg v ∧
      sv = ⟨v, round2 (perfRatio avg v), isRecentFlag cfg.recentDays v.daysAgo⟩ := by
  unfold scoreVideo
  split_ifs with h <;> simp [h, eq_comm]

theorem mem_outperforming_iff (cfg : Config) (c : ChannelData) (sv : ScoredVideo) :
    sv ∈ (analyze_channel cfg c).outperformingVideos ↔
      (∃ v ∈ validVideos c.videos,
        scoreVideo cfg (channelAvg (validVideos c.videos)) v = some sv) ∧
      1 < sv.performanceRatio := by
  by_cases h : validVideos c.videos = []
  · rw [analyze_channel_of_no_valid cfg c h]
    simp [h]
  · rw [analyze_channel_of_valid cfg c h]
    simp only [List.mem_filter, decide_eq_true_eq,
      (List.perm_insertionSort (byKeyDesc (fun sv : ScoredVideo => sv.performanceRatio))
        _).mem_iff, List.mem_filterMap]

/-! ### Stability of the descending insertion sort -/

theorem filter_key_orderedInsert {α β : Type} [LinearOrder β] (key : α → β) (c : β)
    (a : α) : ∀ l : List α,
    (List.orderedInsert (byKeyDesc key) a l).filter (fun x => decide (key x = c)) =
      (if key a = c then [a] else []) ++ l.filter (fun x => decide (key x = c)) := by
  intro l
  induction l with
  | nil =>
    by_cases ha : key a = c <;> simp [List.orderedInsert, ha]
  | cons b l ih =>
    by_cases hr : byKeyDesc key a b
    · rw [List.orderedInsert_of_le (byKeyDesc key) l hr]
      by_cases ha : key a = c <;> simp [ha, List.filter_cons]
    · have hlt : key a < key b := lt_of_not_le hr
      have hins : List.orderedInsert (byKeyDesc key) a (b :: l) =
          b :: List.orderedInsert (byKeyDesc key) a l := by
        simp [List.orderedInsert, hr]
      rw [hins]
      by_cases hb : key b = c
      · have ha : ¬ key a = c := by
          intro hac
          exact absurd (hac.trans hb.symm ▸ hlt) (lt_irrefl _)
        simp only [List.filter_cons, hb, decide_eq_true_eq, if_true, ih, ha, if_false,
          List.nil_append, decide_True, ite_true]
      · simp only [List.filter_cons]
        simp only [decide_eq_true_eq, hb, if_false, ite_false, ih]

theorem filter_key_insertionSort {α β : Type} [LinearOrder β] (key : α → β) (c : β) :
    ∀ l : List α,
    (List.insertionSort (byKeyDesc key) l).filter (fun x => decide (key x = c)) =
      l.filter (fun x => decide (key x = c)) := by
  intro l
  induction l with
  | nil => rfl
  | cons a l ih =>
    show (List.orderedInsert _ a (List.insertionSort _ l)).filter _ = _
    rw [filter_key_orderedInsert key c a (List.insertionSort _ l), ih]
    by_cases ha : key a = c <;> simp [ha, List.filter_cons]

/-! ### Counting lemmas for filters -/

theorem length_filter_eq_iff {α : Type} {p : α → Bool} :
    ∀ {l : List α}, (l.filter p).length = l.length ↔ ∀ a ∈ l, p a = true := by
  intro l
  induction l with
  | nil => simp
  | cons a l ih =>
    by_cases h : p a = true
    · simp [List.filter_cons, h, ih]
    · simp only [List.filter_cons, if_neg h, List.length_cons]
      constructor
      · intro hlen
        exfalso
        have := List.length_filter_le p l
        omega
      · intro hall
        exact absurd (hall a (List.mem_cons_self a l)) h

theorem length_filterMap_eq_iff {α β : Type} {f : α → Option β} :
    ∀ {l : List α}, (l.filterMap f).length = l.length ↔ ∀ a ∈ l, (f a).isSome = true := by
  intro l
  induction l with
  | nil => simp
  | cons a l ih =>
    rcases hfa : f a with _ | b
    · simp only [List.filterMap_cons, hfa, List.length_cons]
      constructor
      · intro hlen
        exfalso
        have := List.length_filterMap_le f l
        omega
      · intro hall
        have := hall a (List.mem_cons_self a l)
        rw [hfa] at this
        exact absurd this (by simp)
    · simp only [List.filterMap_cons, hfa, List.length_cons, Nat.succ_inj]
      rw [ih]
      constructor
      · intro hall x hx
        rcases List.mem_cons.mp hx with rfl | hx
        · rw [hfa]; rfl
        · exact hall x hx
      · intro hall x hx
        exact hall x (List.mem_cons_of_mem a hx)

/-! ### A checked variant modelling the partial operations of analyze_channel.

Every place the Python source could raise is modelled explicitly: division
returns none on a zero denominator, and the per-video ratio computation is
guarded exactly as on line 66 of analyzer.py. -/

/-- Division that fails (as Python ZeroDivisionError) on a zero denominator. -/
def qdiv (a b : ℚ) : Option ℚ :=
  if b = 0 then none else some (a / b)

/-- The loop of lines 64-73 of analyzer.py with the ratio division checked:
line 66 only divides when avg_views > 0, else the ratio is the constant 0. -/
def scoreVideosChecked (cfg : Config) (avg : ℚ) : List Video → Option (List ScoredVideo)
  | [] => some []
  | v :: vs =>
    (if 0 < avg then qdiv (v.views : ℚ) avg else some 0).bind fun ratio =>
      (scoreVideosChecked cfg avg vs).bind fun rest =>
        if cfg.minPerformanceRatio ≤ ratio then
          some (⟨v, round2 ratio, isRecentFlag cfg.recentDays v.daysAgo⟩ :: rest)
        else some rest

/-- analyze_channel with every partial operation checked: the mean division of
line 61 and the ratio divisions of line 66 return none instead of raising. -/
def analyze_channel_checked (cfg : Config) (c : ChannelData) : Option AnalysisResult :=
  if c.videos = [] then
    some ⟨c.channelName, c.handle, c.subscribers, 0, 0, []⟩
  else if validVideos c.videos = [] then
    some ⟨c.channelName, c.handle, c.subscribers, 0, 0, []⟩
  else
    (qdiv ((((validVideos c.videos).map (fun v => v.views)).sum : ℤ) : ℚ)
        ((validVideos c.videos).length : ℚ)).bind
      fun avg => (scoreVideosChecked cfg avg (validVideos c.videos)).map
        fun outperforming =>
          ⟨c.channelName, c.handle, c.subscribers, (roundHalfEven avg : ℚ),
            (validVideos c.videos).length,
            (List.insertionSort (byKeyDesc (fun sv => sv.performanceRatio))
              outperforming).filter (fun sv => decide (1 < sv.performanceRatio))⟩

theorem scoreVideosChecked_eq (cfg : Config) (avg : ℚ) :
    ∀ l : List Video, scoreVideosChecked cfg avg l = some (l.filterMap (scoreVideo cfg avg)) := by
  intro l
  induction l with
  | nil => rfl
  | cons v vs ih =>
    have hratio : (if 0 < avg then qdiv (v.views : ℚ) avg else some 0) =
        some (perfRatio avg v) := by
      unfold perfRatio qdiv
      by_cases havg : 0 < avg
      · rw [if_pos havg, if_pos havg, if_neg (ne_of_gt havg)]
      · rw [if_neg havg, if_neg havg]
    rw [scoreVideosChecked, hratio, Option.some_bind, ih, Option.some_bind,
      List.filterMap_cons]
    unfold scoreVideo
    by_cases hmin : cfg.minPerformanceRatio ≤ perfRatio avg v
    · rw [if_pos hmin, if_pos hmin]
    · rw [if_neg hmin, if_neg hmin]

/-! ### Concrete inputs used by counterexamples and witnesses -/

/-- A video with the given id, view count and recency; the remaining text
fields are empty. -/
def mkVideo (i : String) (w : ℤ) (d : Option ℤ) : Video := ⟨i, "", "", w, "", d, "", ""⟩

/-- The channel of spec scenario 1: views 100, 100, 100, 400, mean 175. -/
def exChannelS1 : ChannelData :=
  ⟨"A", "@a", 1000, 4,
    [mkVideo "a" 100 (some 5), mkVideo "b" 100 none, mkVideo "c" 100 (some 200),
     mkVideo "d" 400 (some 5)]⟩

/-- A channel with views 1004, 998, 998: mean 1000, so the top video has
exact ratio 1.004, which rounds to 1.00 at two decimals. -/
def exChannelC1 : ChannelData :=
  ⟨"C", "@c", 10, 3,
    [mkVideo "x" 1004 (some 5), mkVideo "y" 998 none, mkVideo "z" 998 none]⟩

/-- A channel whose only video has view count 0. -/
def exChannelZero : ChannelData := ⟨"Z", "@z", 5, 1, [mkVideo "n" 0 none]⟩

/-! ### Claim theorems -/

/-- Claim C4: for every channel whose video list is empty or whose every
video has view count at most 0, analyze_channel returns mean 0, valid
count 0 and an empty outperforming sequence. -/
theorem analyze_channel_degenerate (cfg : Config) (c : ChannelData)
    (h : ∀ v ∈ c.videos, v.views ≤ 0) :
    (analyze_channel cfg c).avgViews = 0 ∧
    (analyze_channel cfg c).totalVideosAnalyzed = 0 ∧
    (analyze_channel cfg c).outperformingVideos = [] := by
  have hval : validVideos c.videos = [] := by
    rw [validVideos, List.filter_eq_nil_iff]
    intro v hv
    simpa using not_lt.mpr (h v hv)
  rw [analyze_channel_of_no_valid cfg c hval]
  exact ⟨rfl, rfl, rfl⟩

theorem analyze_channel_degenerate_witness :
    (analyze_channel defaultConfig exChannelZero).avgViews = 0 ∧
    (analyze_channel defaultConfig exChannelZero).totalVideosAnalyzed = 0 ∧
    (analyze_channel defaultConfig exChannelZero).outperformingVideos = [] :=
  analyze_channel_degenerate defaultConfig exChannelZero (by decide)

/-- Claim C8: analyze_channel is total: the checked variant, in which every
possibly-failing operation of the source (the two divisions) is modelled as
returning none on a zero denominator, always succeeds and returns exactly
the result of analyze_channel. -/
theorem analyze_channel_total (cfg : Config) (c : ChannelData) :
    analyze_channel_checked cfg c = some (analyze_channel cfg c) := by
  by_cases hv : c.videos = []
  · simp [analyze_channel_checked, analyze_channel, hv]
  · by_cases hval : validVideos c.videos = []
    · simp [analyze_channel_checked, analyze_channel, hv, hval]
    · have hlen : ((validVideos c.videos).length : ℚ) ≠ 0 := by
        have h1 := List.length_pos.mpr hval
        exact_mod_cast Nat.pos_iff_ne_zero.mp h1
      rw [analyze_channel_of_valid cfg c hval]
      unfold analyze_channel_checked
      rw [if_neg hv, if_neg hval, qdiv, if_neg hlen, Option.some_bind,
        scoreVideosChecked_eq, Option.map_some']
      rfl

theorem analyze_channel_total_witness :
    analyze_channel_checked defaultConfig exChannelS1 =
      some (analyze_channel defaultConfig exChannelS1) :=
  analyze_channel_total defaultConfig exChannelS1

/-- Claim C9: with at least one valid video the exact channel mean is
strictly positive, so the mean-zero fallback of the ratio computation is
never taken (the ratio is literally views divided by the mean); moreover the
returned mean field is 0 exactly when the valid-video count is 0. -/
theorem analyze_channel_mean_zero_iff (cfg : Config) (c : ChannelData) :
    (validVideos c.videos ≠ [] →
      0 < channelAvg (validVideos c.videos) ∧
      ∀ v : Video, perfRatio (channelAvg (validVideos c.videos)) v =
        (v.views : ℚ) / channelAvg (validVideos c.videos)) ∧
    ((analyze_channel cfg c).avgViews = 0 ↔
      (analyze_channel cfg c).totalVideosAnalyzed = 0) := by
  constructor
  · intro h
    refine ⟨channelAvg_pos h, fun v => ?_⟩
    unfold perfRatio
    rw [if_pos (channelAvg_pos h)]
  · by_cases h : validVideos c.videos = []
    · rw [analyze_channel_of_no_valid cfg c h]
      simp
    · rw [analyze_channel_of_valid cfg c h]
      have h1 : 1 ≤ roundHalfEven (channelAvg (validVideos c.videos)) :=
        one_le_roundHalfEven (one_le_channelAvg h)
      have hne : ((roundHalfEven (channelAvg (validVideos c.videos)) : ℤ) : ℚ) ≠ 0 := by
        have h2 : (1 : ℚ) ≤ ((roundHalfEven (channelAvg (validVideos c.videos)) : ℤ) : ℚ) := by
          exact_mod_cast h1
        intro h0
        rw [h0] at h2
        norm_num at h2
      have hlen : (validVideos c.videos).length ≠ 0 := by
        simpa [List.length_eq_zero] using h
      exact iff_of_false hne hlen

theorem analyze_channel_mean_zero_iff_witness :
    0 < channelAvg (validVideos exChannelS1.videos) :=
  ((analyze_channel_mean_zero_iff defaultConfig exChannelS1).1 (by decide)).1

/-- Claim C10: with at least one valid video, the outperforming sequence is
a strict subset of the valid videos: its length is strictly less than the
valid-video count (not every valid video can lie strictly above the mean). -/
theorem analyze_channel_outperforming_lt (cfg : Config) (c : ChannelData)
    (h : validVideos c.videos ≠ []) :
    (analyze_channel cfg c).outperformingVideos.length <
      (validVideos c.videos).length := by
  rw [analyze_channel_of_valid cfg c h]
  set valid := validVideos c.videos with hvalid
  set avg := channelAvg valid with havg
  set pre := valid.filterMap (scoreVideo cfg avg) with hpre
  set sorted := List.insertionSort
    (byKeyDesc (fun sv : ScoredVideo => sv.performanceRatio)) pre with hsorted
  show (sorted.filter (fun sv => decide (1 < sv.performanceRatio))).length < valid.length
  have le1 : (sorted.filter (fun sv => decide (1 < sv.performanceRatio))).length ≤
      sorted.length := List.length_filter_le _ _
  have e1 : sorted.length = pre.length := (List.perm_insertionSort _ _).length_eq
  have le2 : pre.length ≤ valid.length := List.length_filterMap_le _ _
  refine lt_of_le_of_ne (le1.trans (by rw [e1]; exact le2)) ?_
  intro heq
  have e2 : (sorted.filter (fun sv => decide (1 < sv.performanceRatio))).length =
      sorted.length := by omega
  have e3 : pre.length = valid.length := by omega
  have hallpass : ∀ sv ∈ sorted, decide (1 < sv.performanceRatio) = true :=
    length_filter_eq_iff.mp e2
  have hallsome : ∀ v ∈ valid, (scoreVideo cfg avg v).isSome = true :=
    length_filterMap_eq_iff.mp e3
  have havgpos : 0 < avg := channelAvg_pos h
  have hgt : ∀ v ∈ valid, avg < (v.views : ℚ) := by
    intro v hv
    rcases Option.isSome_iff_exists.mp (hallsome v hv) with ⟨sv, hsv⟩
    have hmem : sv ∈ pre := List.mem_filterMap.mpr ⟨v, hv, hsv⟩
    have hmem2 : sv ∈ sorted := (List.perm_insertionSort _ _).mem_iff.mpr hmem
    have hpass := hallpass sv hmem2
    rw [decide_eq_true_eq] at hpass
    rcases scoreVideo_eq_some_iff.mp hsv with ⟨_, rfl⟩
    have hratio : 1 < perfRatio avg v := one_lt_of_one_lt_round2 hpass
    unfold perfRatio at hratio
    rw [if_pos havgpos] at hratio
    exact (one_lt_div havgpos).mp hratio
  have hsum : avg * (((valid.map (fun v => (v.views : ℚ))).length : ℕ) : ℚ) <
      (valid.map (fun v => (v.views : ℚ))).sum := by
    apply mul_length_lt_sum
    · simpa using h
    · intro x hx
      rcases List.mem_map.mp hx with ⟨v, hv, rfl⟩
      exact hgt v hv
  rw [List.length_map] at hsum
  have hlenq : ((valid.length : ℕ) : ℚ) ≠ 0 := by
    have := List.length_pos.mpr h
    exact_mod_cast Nat.pos_iff_ne_zero.mp this
  have hprod : avg * ((valid.length : ℕ) : ℚ) =
      (valid.map (fun v => (v.views : ℚ))).sum := by
    rw [havg, hvalid, channelAvg_eq]
    field_simp
  rw [hprod] at hsum
  exact lt_irrefl _ hsum

theorem analyze_channel_outperforming_lt_witness :
    (analyze_channel defaultConfig exChannelS1).outperformingVideos.length <
      (validVideos exChannelS1.videos).length :=
  analyze_channel_outperforming_lt defaultConfig exChannelS1 (by decide)

/-- Claim C2: with at least one valid video, the mean used by
analyze_channel is the exact arithmetic mean of the views of exactly the
valid (view count > 0) videos; integer rounding is applied only to the
returned mean field, while the stored ratio of every retained video is
computed from the unrounded mean. -/
theorem analyze_channel_mean_exact (cfg : Config) (c : ChannelData)
    (h : validVideos c.videos ≠ []) :
    (analyze_channel cfg c).avgViews =
      (roundHalfEven (((validVideos c.videos).map (fun v => (v.views : ℚ))).sum /
        ((validVideos c.videos).length : ℚ)) : ℚ) ∧
    ∀ sv ∈ (analyze_channel cfg c).outperformingVideos,
      0 < sv.video.views ∧
      sv.performanceRatio =
        round2 ((sv.video.views : ℚ) /
          (((validVideos c.videos).map (fun v => (v.views : ℚ))).sum /
            ((validVideos c.videos).length : ℚ))) := by
  have hrw : ((validVideos c.videos).map (fun v => (v.views : ℚ))).sum /
      ((validVideos c.videos).length : ℚ) = channelAvg (validVideos c.videos) :=
    (channelAvg_eq _).symm
  rw [hrw]
  constructor
  · rw [analyze_channel_of_valid cfg c h]
  · intro sv hsv
    rcases (mem_outperforming_iff cfg c sv).mp hsv with ⟨⟨v, hv, hsc⟩, _⟩
    rcases scoreVideo_eq_some_iff.mp hsc with ⟨_, rfl⟩
    refine ⟨(mem_validVideos.mp hv).2, ?_⟩
    show round2 (perfRatio (channelAvg (validVideos c.videos)) v) = _
    unfold perfRatio
    rw [if_pos (channelAvg_pos h)]

theorem analyze_channel_mean_exact_witness :
    (analyze_channel defaultConfig exChannelS1).avgViews = 175 :=
  ((analyze_channel_mean_exact defaultConfig exChannelS1 (by decide)).1).trans (by
    norm_num [validVideos, exChannelS1, mkVideo, roundHalfEven])

/-- Claim C1 as frozen is false on the code: in the channel with views
1004, 998, 998 the first video has exact ratio 1.004, strictly above 1 and
at least the default minimum ratio 1.0, yet the outperforming sequence is
empty, because the source compares the ratio ROUNDED to two decimals
against 1.0 (line 80 of analyzer.py reads the rounded performance_ratio). -/
theorem analyze_channel_exact_ratio_filter_fails :
    mkVideo "x" 1004 (some 5) ∈ exChannelC1.videos ∧
    0 < (mkVideo "x" 1004 (some 5)).views ∧
    1 < ((mkVideo "x" 1004 (some 5)).views : ℚ) /
      channelAvg (validVideos exChannelC1.videos) ∧
    defaultConfig.minPerformanceRatio ≤
      ((mkVideo "x" 1004 (some 5)).views : ℚ) /
        channelAvg (validVideos exChannelC1.videos) ∧
    (analyze_channel defaultConfig exChannelC1).outperformingVideos = [] := by
  have havg : channelAvg (validVideos exChannelC1.videos) = 1000 := by
    norm_num [channelAvg, validVideos, exChannelC1, mkVideo]
  refine ⟨by decide, by decide, ?_, ?_, ?_⟩
  · rw [havg]
    norm_num [mkVideo]
  · rw [havg]
    norm_num [mkVideo, defaultConfig]
  · rw [analyze_channel_of_valid defaultConfig exChannelC1 (by decide), havg]
    norm_num [validVideos, exChannelC1, mkVideo, scoreVideo, perfRatio, defaultConfig,
      round2, roundHalfEven, isRecentFlag, List.filterMap_cons, List.insertionSort,
      List.orderedInsert, byKeyDesc, List.filter]

/-- Claim C1, amended: a video appears in the outperforming sequence iff it
is in the channel, is valid (view count > 0), its exact ratio reaches the
configured minimum-performance-ratio threshold, and its ratio ROUNDED to two
decimals (half to even) is strictly greater than 1.0. -/
theorem analyze_channel_outperforming_iff (cfg : Config) (c : ChannelData) (v : Video) :
    (∃ sv ∈ (analyze_channel cfg c).outperformingVideos, sv.video = v) ↔
      v ∈ c.videos ∧ 0 < v.views ∧
      cfg.minPerformanceRatio ≤ (v.views : ℚ) / channelAvg (validVideos c.videos) ∧
      1 < round2 ((v.views : ℚ) / channelAvg (validVideos c.videos)) := by
  by_cases h : validVideos c.videos = []
  · constructor
    · rintro ⟨sv, hsv, rfl⟩
      rw [analyze_channel_of_no_valid cfg c h] at hsv
      simp at hsv
    · rintro ⟨hv, hpos, _, _⟩
      have : v ∈ validVideos c.videos := mem_validVideos.mpr ⟨hv, hpos⟩
      rw [h] at this
      simp at this
  · have havgpos := channelAvg_pos h
    have hperf : ∀ u : Video, perfRatio (channelAvg (validVideos c.videos)) u =
        (u.views : ℚ) / channelAvg (validVideos c.videos) := by
      intro u
      unfold perfRatio
      rw [if_pos havgpos]
    constructor
    · rintro ⟨sv, hsv, rfl⟩
      rcases (mem_outperforming_iff cfg c sv).mp hsv with ⟨⟨u, hu, hsc⟩, hgt⟩
      rcases scoreVideo_eq_some_iff.mp hsc with ⟨hmin, rfl⟩
      rcases mem_validVideos.mp hu with ⟨humem, hupos⟩
      refine ⟨humem, hupos, ?_, ?_⟩
      · rw [← hperf u]
        exact hmin
      · rw [← hperf u]
        exact hgt
    · rintro ⟨hv, hpos, hmin, hgt⟩
      refine ⟨⟨v, round2 (perfRatio (channelAvg (validVideos c.videos)) v),
        isRecentFlag cfg.recentDays v.daysAgo⟩, ?_, rfl⟩
      rw [mem_outperforming_iff]
      refine ⟨⟨v, mem_validVideos.mpr ⟨hv, hpos⟩, ?_⟩, ?_⟩
      · rw [scoreVideo_eq_some_iff]
        exact ⟨by rw [hperf]; exact hmin, rfl⟩
      · show 1 < round2 (perfRatio (channelAvg (validVideos c.videos)) v)
        rw [hperf]
        exact hgt

theorem analyze_channel_outperforming_iff_witness :
    ∃ sv ∈ (analyze_channel defaultConfig exChannelS1).outperformingVideos,
      sv.video = mkVideo "d" 400 (some 5) :=
  (analyze_channel_outperforming_iff defaultConfig exChannelS1
    (mkVideo "d" 400 (some 5))).mpr (by
      have havg : channelAvg (validVideos exChannelS1.videos) = 175 := by
        norm_num [channelAvg, validVideos, exChannelS1, mkVideo]
      refine ⟨by decide, by decide, ?_, ?_⟩
      · rw [havg]
        norm_num [mkVideo, defaultConfig]
      · rw [havg]
        norm_num [mkVideo, round2, roundHalfEven])

/-- Claim C3: the outperforming sequence is ordered by the stored
performance ratio descending (any earlier entry has ratio at least any
later entry), and entries with equal ratio keep the original ingestion
order: for every ratio value above the cut, filtering the output to that
ratio gives exactly the scored videos with that ratio in input order. -/
theorem analyze_channel_sorted_stable (cfg : Config) (c : ChannelData) :
    (analyze_channel cfg c).outperformingVideos.Pairwise
      (fun a b => b.performanceRatio ≤ a.performanceRatio) ∧
    ∀ q : ℚ, 1 < q →
      (analyze_channel cfg c).outperformingVideos.filter
          (fun sv => decide (sv.performanceRatio = q)) =
        ((validVideos c.videos).filterMap
            (scoreVideo cfg (channelAvg (validVideos c.videos)))).filter
          (fun sv => decide (sv.performanceRatio = q)) := by
  by_cases h : validVideos c.videos = []
  · rw [analyze_channel_of_no_valid cfg c h, h]
    simp
  · rw [analyze_channel_of_valid cfg c h]
    constructor
    · have hs := List.sorted_insertionSort
        (byKeyDesc (fun sv : ScoredVideo => sv.performanceRatio))
        ((validVideos c.videos).filterMap
          (scoreVideo cfg (channelAvg (validVideos c.videos))))
      exact hs.filter _
    · intro q hq
      show (List.filter _ (List.filter _ _)) = _
      rw [List.filter_filter]
      have hcongr : ∀ sv ∈ List.insertionSort
          (byKeyDesc (fun sv : ScoredVideo => sv.performanceRatio))
          ((validVideos c.videos).filterMap
            (scoreVideo cfg (channelAvg (validVideos c.videos)))),
          (decide (sv.performanceRatio = q) && decide (1 < sv.performanceRatio)) =
            decide (sv.performanceRatio = q) := by
        intro sv _
        by_cases hsq : sv.performanceRatio = q
        · simp [hsq, hq]
        · simp [hsq]
      rw [List.filter_congr hcongr]
      exact filter_key_insertionSort (fun sv : ScoredVideo => sv.performanceRatio) q _

theorem analyze_channel_sorted_stable_witness :
    (analyze_channel defaultConfig exChannelS1).outperformingVideos.filter
        (fun sv => decide (sv.performanceRatio = 229/100)) =
      ((validVideos exChannelS1.videos).filterMap
          (scoreVideo defaultConfig (channelAvg (validVideos exChannelS1.videos)))).filter
        (fun sv => decide (sv.performanceRatio = 229/100)) :=
  (analyze_channel_sorted_stable defaultConfig exChannelS1).2 (229/100) (by norm_num)

/-- Claim C5: analyze_all_channels analyzes every channel, keeps exactly the
results with a non-empty outperforming sequence, orders them by
outperforming count descending with ties kept in original channel order,
and maps empty input to empty output. -/
theorem analyze_all_channels_spec (cfg : Config) (cs : List ChannelData) :
    (∀ a : AnalysisResult,
      a ∈ analyze_all_channels cfg cs ↔
        a ∈ cs.map (analyze_channel cfg) ∧ a.outperformingVideos ≠ []) ∧
    (analyze_all_channels cfg cs).Pairwise
      (fun a b => b.outperformingVideos.length ≤ a.outperformingVideos.length) ∧
    (∀ n : ℕ,
      (analyze_all_channels cfg cs).filter
          (fun a => decide (a.outperformingVideos.length = n)) =
        ((cs.map (analyze_channel cfg)).filter
            (fun a => decide (a.outperformingVideos ≠ []))).filter
          (fun a => decide (a.outperformingVideos.length = n))) ∧
    (cs = [] → analyze_all_channels cfg cs = []) := by
  refine ⟨?_, ?_, ?_, ?_⟩
  · intro a
    unfold analyze_all_channels
    rw [(List.perm_insertionSort _ _).mem_iff, List.mem_filter, decide_eq_true_eq]
  · have hs := List.sorted_insertionSort
      (byKeyDesc (fun a : AnalysisResult => a.outperformingVideos.length))
      ((cs.map (analyze_channel cfg)).filter (fun a => decide (a.outperformingVideos ≠ [])))
    exact hs
  · intro n
    exact filter_key_insertionSort (fun a : AnalysisResult => a.outperformingVideos.length) n _
  · rintro rfl
    rfl

theorem analyze_all_channels_spec_witness :
    analyze_all_channels defaultConfig [] = [] :=
  (analyze_all_channels_spec defaultConfig []).2.2.2 rfl

/-- The concrete output of analyze_channel on the scenario 1 channel: the
400-view video with ratio 2.29 and recency flag true. -/
theorem outperforming_exChannelS1 :
    (analyze_channel defaultConfig exChannelS1).outperformingVideos =
      [⟨mkVideo "d" 400 (some 5), 229/100, true⟩] := by
  have havg : channelAvg (validVideos exChannelS1.videos) = 175 := by
    norm_num [channelAvg, validVideos, exChannelS1, mkVideo]
  rw [analyze_channel_of_valid defaultConfig exChannelS1 (by decide), havg]
  norm_num [validVideos, exChannelS1, mkVideo, scoreVideo, perfRatio, defaultConfig,
    round2, roundHalfEven, isRecentFlag, List.filterMap_cons, List.insertionSort,
    List.orderedInsert, byKeyDesc, List.filter]

/-- Claim C6: every retained video has recency flag true iff its recency in
days is known and at most the configured recent window; unknown recency
always gives flag false, whatever the window. -/
theorem analyze_channel_recency (cfg : Config) (c : ChannelData) :
    ∀ sv ∈ (analyze_channel cfg c).outperformingVideos,
      ((sv.isRecent = true) ↔
        ∃ d, sv.video.daysAgo = some d ∧ d ≤ cfg.recentDays) ∧
      (sv.video.daysAgo = none → sv.isRecent = false) := by
  intro sv hsv
  rcases (mem_outperforming_iff cfg c sv).mp hsv with ⟨⟨v, _, hsc⟩, _⟩
  rcases scoreVideo_eq_some_iff.mp hsc with ⟨_, rfl⟩
  rcases hd : v.daysAgo with _ | d
  · simp [isRecentFlag, hd]
  · simp [isRecentFlag, hd]

theorem analyze_channel_recency_witness :
    ((⟨mkVideo "d" 400 (some 5), 229/100, true⟩ : ScoredVideo).isRecent = true ↔
      ∃ d, (⟨mkVideo "d" 400 (some 5), 229/100, true⟩ : ScoredVideo).video.daysAgo = some d ∧
        d ≤ defaultConfig.recentDays) ∧
    ((⟨mkVideo "d" 400 (some 5), 229/100, true⟩ : ScoredVideo).video.daysAgo = none →
      (⟨mkVideo "d" 400 (some 5), 229/100, true⟩ : ScoredVideo).isRecent = false) :=
  analyze_channel_recency defaultConfig exChannelS1
    ⟨mkVideo "d" 400 (some 5), 229/100, true⟩
    (by rw [outperforming_exChannelS1]; exact List.mem_singleton.mpr rfl)

/-- Claim C7 as frozen is false on the code: in a channel whose only valid
video is the one whose view count increases, the ratio stays constantly 1
(the mean equals the views themselves), so it does not strictly increase. -/
theorem perfRatio_not_strictMono :
    (mkVideo "s" 1 none).views < (mkVideo "s" 2 none).views ∧
    perfRatio (channelAvg (validVideos [mkVideo "s" 1 none])) (mkVideo "s" 1 none) = 1 ∧
    perfRatio (channelAvg (validVideos [mkVideo "s" 2 none])) (mkVideo "s" 2 none) = 1 := by
  refine ⟨by decide, ?_, ?_⟩ <;>
    norm_num [perfRatio, channelAvg, validVideos, mkVideo]

/-- Replace the view count of a video, keeping every other field. -/
def setViews (v : Video) (w : ℤ) : Video :=
  ⟨v.id, v.title, v.link, w, v.publishedTime, v.daysAgo, v.thumbnail, v.durationLabel⟩

theorem validVideos_insert (pre post : List Video) (x : Video) (hx : 0 < x.views) :
    validVideos (pre ++ x :: post) = validVideos pre ++ x :: validVideos post := by
  rw [validVideos_append]
  congr 1
  unfold validVideos
  rw [List.filter_cons, if_pos (by simpa using hx)]

theorem channelAvg_insert (pre post : List Video) (x : Video) (hx : 0 < x.views) :
    channelAvg (validVideos (pre ++ x :: post)) =
      ((x.views : ℚ) +
        (((validVideos pre ++ validVideos post).map (fun u => (u.views : ℚ))).sum)) /
      (((validVideos pre ++ validVideos post).length : ℚ) + 1) := by
  rw [channelAvg_eq, validVideos_insert pre post x hx]
  simp only [List.map_append, List.sum_append, List.map_cons, List.sum_cons,
    List.length_append, List.length_cons]
  congr 1
  · ring
  · push_cast
    ring

/-- Claim C7, amended: if the channel contains at least one valid video
besides the one being varied, then the ratio of a valid video strictly
increases when its view count increases with every other video held fixed. -/
theorem perfRatio_strictMono (pre post : List Video) (v : Video) (w₁ w₂ : ℤ)
    (hother : ∃ u ∈ pre ++ post, 0 < u.views) (h1 : 0 < w₁) (h12 : w₁ < w₂) :
    perfRatio (channelAvg (validVideos (pre ++ setViews v w₁ :: post))) (setViews v w₁) <
    perfRatio (channelAvg (validVideos (pre ++ setViews v w₂ :: post))) (setViews v w₂) := by
  have h2 : (0 : ℤ) < w₂ := lt_trans h1 h12
  have hq1 : (0 : ℚ) < (w₁ : ℚ) := by exact_mod_cast h1
  have hq2 : (0 : ℚ) < (w₂ : ℚ) := by exact_mod_cast h2
  have hq12 : (w₁ : ℚ) < (w₂ : ℚ) := by exact_mod_cast h12
  set S := ((validVideos pre ++ validVideos post).map (fun u => (u.views : ℚ))).sum with hSdef
  set n := (validVideos pre ++ validVideos post).length with hndef
  have hSpos : 0 < S := by
    rcases hother with ⟨u, hu, hupos⟩
    have hmem : u ∈ validVideos pre ++ validVideos post := by
      rcases List.mem_append.mp hu with h | h
      · exact List.mem_append.mpr (Or.inl (mem_validVideos.mpr ⟨h, hupos⟩))
      · exact List.mem_append.mpr (Or.inr (mem_validVideos.mpr ⟨h, hupos⟩))
    rw [hSdef]
    apply List.sum_pos
    · intro x hx
      rcases List.mem_map.mp hx with ⟨y, hy, rfl⟩
      have hyv : 0 < y.views := by
        rcases List.mem_append.mp hy with h | h
        · exact (mem_validVideos.mp h).2
        · exact (mem_validVideos.mp h).2
      exact_mod_cast hyv
    · intro hnil
      rw [List.map_eq_nil_iff] at hnil
      rw [hnil] at hmem
      simp at hmem
  have hden : (0 : ℚ) < (n : ℚ) + 1 := by positivity
  have key : ∀ w : ℤ, 0 < w → (0 : ℚ) < (w : ℚ) →
      perfRatio (channelAvg (validVideos (pre ++ setViews v w :: post))) (setViews v w) =
        (w : ℚ) * ((n : ℚ) + 1) / ((w : ℚ) + S) := by
    intro w hw hwq
    have havg : channelAvg (validVideos (pre ++ setViews v w :: post)) =
        ((w : ℚ) + S) / ((n : ℚ) + 1) := by
      rw [channelAvg_insert pre post (setViews v w) hw]
      rfl
    have hnum : (0 : ℚ) < (w : ℚ) + S := by linarith
    have havgpos : 0 < channelAvg (validVideos (pre ++ setViews v w :: post)) := by
      rw [havg]
      exact div_pos hnum hden
    unfold perfRatio
    rw [if_pos havgpos, havg]
    show (w : ℚ) / (((w : ℚ) + S) / ((n : ℚ) + 1)) = _
    rw [div_div_eq_mul_div]
  rw [key w₁ h1 hq1, key w₂ h2 hq2]
  rw [div_lt_div_iff₀ (by linarith) (by linarith)]
  have hmul : (w₁ : ℚ) * S < (w₂ : ℚ) * S := mul_lt_mul_of_pos_right hq12 hSpos
  have hmul2 : ((n : ℚ) + 1) * ((w₁ : ℚ) * S) < ((n : ℚ) + 1) * ((w₂ : ℚ) * S) :=
    mul_lt_mul_of_pos_left hmul hden
  nlinarith [hmul2]

theorem perfRatio_strictMono_witness :
    perfRatio
        (channelAvg (validVideos
          ([mkVideo "o" 100 none] ++ setViews (mkVideo "s" 0 none) 50 :: [])))
        (setViews (mkVideo "s" 0 none) 50) <
      perfRatio
        (channelAvg (validVideos
          ([mkVideo "o" 100 none] ++ setViews (mkVideo "s" 0 none) 60 :: [])))
        (setViews (mkVideo "s" 0 none) 60) :=
  perfRatio_strictMono [mkVideo "o" 100 none] [] (mkVideo "s" 0 none) 50 60
    (by decide) (by decide) (by decide)

end YTMonitor
